import Mathlib

/-!
Shallow embedding of the OptionsScanner scan pipeline and scan cache:
the utility helpers (src/js/utils.js), the filter chain (src/js/filters.js),
the scanner class with its normalizer, sorter and orchestrator
(src/js/app.js), the API client (fetch retry, pagination, multi-ticker
batching), and the cache manager (save, limit enforcement, listing).

Modelling conventions:
JavaScript numbers are modelled as exact rationals, nullable or possibly
absent values as Option, and JS truthiness of a number is "non-null and
nonzero". Asynchronous I/O is modelled by passing the environment (the
per-request response, the per-ticker fetch outcome, the wall clock) as an
explicit argument; the delays the code sleeps for are recorded as data.
-/

namespace OptionsScanner

/-- A JavaScript value as it occurs in a contract field: null or undefined,
a finite number, or a string. -/
inductive JSVal where
  | null : JSVal
  | num (q : ℚ) : JSVal
  | str (s : String) : JSVal
deriving DecidableEq, Repr

/-- JS truthiness of a nullable number: false for null and for 0. -/
def numTruthy (v : Option ℚ) : Bool :=
  match v with
  | none => false
  | some q => decide (q ≠ 0)

/-- JS truthiness of a nullable string: false for null and for the empty
string. -/
def strTruthy (v : Option String) : Bool :=
  match v with
  | none => false
  | some s => decide (s ≠ "")

/-- utils.js getMoneyness. The JS guard `!strike || !underlyingPrice` is
true exactly when either argument is null or zero, and then the function
returns "-". Otherwise, within 2 percent of the underlying price the
contract is ATM; above that band calls above the underlying price are OTM
and below it ITM, with the comparison inverted for every other contract
type (the put branch). -/
def getMoneyness (strike underlyingPrice : Option ℚ) (contractType : String) : String :=
  match strike, underlyingPrice with
  | some s, some u =>
    if s = 0 ∨ u = 0 then "-"
    else
      let pctDiff := (s - u) / u
      if |pctDiff| ≤ 2 / 100 then "ATM"
      else if contractType = "call" then
        if pctDiff > 0 then "OTM" else "ITM"
      else
        if pctDiff < 0 then "OTM" else "ITM"
  | _, _ => "-"

/-- utils.js chunk: split a list into consecutive slices of the given
size. The JS loop advances its index by `size`, so with size = 0 it would
never terminate; the embedding returns [] in that (never exercised) case. -/
def chunk (l : List α) (size : ℕ) : List (List α) :=
  match l with
  | [] => []
  | a :: as =>
    if hs : size = 0 then []
    else (a :: as).take size :: chunk ((a :: as).drop size) size
termination_by l.length
decreasing_by
  simp only [List.length_drop, List.length_cons]
  omega

/-! Data model: universe entries, raw provider payloads, normalized
contracts (config.js DEFAULT_UNIVERSE shape; the nested payload shape
read by the normalizer in app.js). -/

/-- One entry of the ticker universe (config.js): ticker with metadata. -/
structure UniverseEntry where
  ticker : String
  company : String
  industry : String
  country : String
deriving DecidableEq, Repr

/-- The `details` sub-object of a raw contract; any field may be absent. -/
structure RawDetails where
  ticker : Option String := none
  underlying_ticker : Option String := none
  expiration_date : Option String := none
  contract_type : Option String := none
  strike_price : Option ℚ := none
deriving DecidableEq, Repr

/-- The `greeks` sub-object of a raw contract. -/
structure RawGreeks where
  delta : Option ℚ := none
  gamma : Option ℚ := none
  theta : Option ℚ := none
  vega : Option ℚ := none
deriving DecidableEq, Repr

/-- The `last_quote` sub-object of a raw contract. -/
structure RawQuote where
  bid : Option ℚ := none
  ask : Option ℚ := none
  midpoint : Option ℚ := none
deriving DecidableEq, Repr

/-- The `last_trade` sub-object of a raw contract. -/
structure RawTrade where
  price : Option ℚ := none
deriving DecidableEq, Repr

/-- The `day` sub-object of a raw contract. -/
structure RawDay where
  volume : Option ℚ := none
deriving DecidableEq, Repr

/-- The `underlying_asset` sub-object of a raw contract. -/
structure RawUnderlying where
  ticker : Option String := none
  price : Option ℚ := none
deriving DecidableEq, Repr

/-- A raw provider contract payload; every nested sub-object may be
absent. `tickerHint` models the `_ticker` property the fetch step
attaches to each result. -/
structure Raw where
  details : Option RawDetails := none
  greeks : Option RawGreeks := none
  last_quote : Option RawQuote := none
  last_trade : Option RawTrade := none
  day : Option RawDay := none
  underlying_asset : Option RawUnderlying := none
  implied_volatility : Option ℚ := none
  open_interest : Option ℚ := none
  break_even_price : Option ℚ := none
  tickerHint : Option String := none
deriving DecidableEq, Repr

/-- The flat normalized contract produced by the scanner
(app.js OptionsScanner normalize step). The `_meta` sub-object is
flattened into the three meta fields. -/
structure Contract where
  contractTicker : String := ""
  underlying : String := ""
  type : String := ""
  strike : Option ℚ := none
  expiration : String := ""
  dte : Option ℤ := none
  bid : Option ℚ := none
  ask : Option ℚ := none
  mid : Option ℚ := none
  last : Option ℚ := none
  spread : Option ℚ := none
  spreadPct : Option ℚ := none
  iv : Option ℚ := none
  delta : Option ℚ := none
  gamma : Option ℚ := none
  theta : Option ℚ := none
  vega : Option ℚ := none
  volume : Option ℚ := none
  openInterest : Option ℚ := none
  underlyingPrice : Option ℚ := none
  breakEven : Option ℚ := none
  moneyness : String := ""
  metaCompany : String := ""
  metaIndustry : String := ""
  metaCountry : String := ""
deriving DecidableEq, Repr

/-- First truthy string of a chain `a || b || ... || ""` of nullable
strings: the first one that is non-null and non-empty, else the empty
string. -/
def firstTruthyString : List (Option String) → String
  | [] => ""
  | v :: vs => if strTruthy v then v.getD "" else firstTruthyString vs

/-- Lookup in the universe map built by `_buildUniverseMap`. The map is a
JS Map filled by `map.set(item.ticker, item)`, so for a duplicated ticker
the last entry wins; lookup of an unknown ticker gives null. -/
def universeLookup (universeList : List UniverseEntry) (t : String) : Option UniverseEntry :=
  universeList.reverse.find? (fun u => u.ticker == t)

/-- The normalizer `_normalizeContract` of app.js. Date arithmetic
(`calculateDTE`, driven by the ambient current date) is abstracted as the
argument `calcDTE`; no claim concerns its value. The JS expression
`bid && ask ? (bid + ask) / 2 : null` computes the fallback midpoint only
when both bid and ask are truthy, that is non-null and nonzero. -/
def normalizeContract (raw : Raw) (universeList : List UniverseEntry)
    (calcDTE : String → ℤ) : Contract :=
  let details := raw.details.getD {}
  let greeks := raw.greeks.getD {}
  let lastQuote := raw.last_quote.getD {}
  let lastTrade := raw.last_trade.getD {}
  let day := raw.day.getD {}
  let underlying := raw.underlying_asset.getD {}
  let underlyingTicker :=
    firstTruthyString [details.underlying_ticker, underlying.ticker, raw.tickerHint]
  let meta := universeLookup universeList underlyingTicker
  let expiration := details.expiration_date.getD ""
  let dte := if expiration ≠ "" then some (calcDTE expiration) else none
  let bid := lastQuote.bid
  let ask := lastQuote.ask
  let mid :=
    match lastQuote.midpoint with
    | some m => some m
    | none =>
      match bid, ask with
      | some b, some a => if b = 0 ∨ a = 0 then none else some ((b + a) / 2)
      | _, _ => none
  let spreadPair : Option ℚ × Option ℚ :=
    match bid, ask, mid with
    | some b, some a, some m =>
      if m > 0 then (some (a - b), some ((a - b) / m * 100)) else (none, none)
    | _, _, _ => (none, none)
  let strike := details.strike_price
  let underlyingPrice := underlying.price
  let contractType := details.contract_type.getD ""
  { contractTicker := details.ticker.getD ""
    underlying := underlyingTicker
    type := contractType
    strike := strike
    expiration := expiration
    dte := dte
    bid := bid
    ask := ask
    mid := mid
    last := lastTrade.price
    spread := spreadPair.1
    spreadPct := spreadPair.2
    iv := raw.implied_volatility
    delta := greeks.delta
    gamma := greeks.gamma
    theta := greeks.theta
    vega := greeks.vega
    volume := day.volume
    openInterest := raw.open_interest
    underlyingPrice := underlyingPrice
    breakEven := raw.break_even_price
    moneyness := getMoneyness strike underlyingPrice contractType
    metaCompany := (meta.map (·.company)).getD ""
    metaIndustry := (meta.map (·.industry)).getD ""
    metaCountry := (meta.map (·.country)).getD "" }

/-! API client (api.js): retry with backoff, pagination, batched
multi-ticker fetching. -/

/-- Outcome of one HTTP request: a successful JSON payload, or a thrown
error carrying `error.status` (absent for non-HTTP failures such as a
network error, where `error.status` is undefined). -/
inductive FetchResult (α : Type) where
  | success (payload : α)
  | httpError (status : Option ℕ)
deriving DecidableEq, Repr

/-- The JS test `error.status >= 500`: false when the status is
undefined (NaN comparison). -/
def isServerError (s : Option ℕ) : Bool :=
  match s with
  | some v => decide (500 ≤ v)
  | none => false

/-- Observable outcome of `_fetchWithRetry`: the returned payload or the
thrown error (the error slot of the thrown error is the status; the outer
Option models `lastError`, which is still undefined when the loop body
never ran), together with how many requests were issued and which backoff
delays were slept. -/
instance instDecidableEqExcept [DecidableEq ε] [DecidableEq α] :
    DecidableEq (Except ε α)
  | .ok a, .ok b =>
    if h : a = b then .isTrue (by rw [h])
    else .isFalse (by intro he; cases he; exact h rfl)
  | .ok _, .error _ => .isFalse (by intro he; cases he)
  | .error _, .ok _ => .isFalse (by intro he; cases he)
  | .error e, .error f =>
    if h : e = f then .isTrue (by rw [h])
    else .isFalse (by intro he; cases he; exact h rfl)

structure RetryTrace (α : Type) where
  result : Except (Option (Option ℕ)) α
  requests : ℕ
  delays : List ℕ
deriving DecidableEq, Repr

/-- The retry loop of `_fetchWithRetry`. `resp i` is the outcome of the
request issued on attempt `i`; `remaining` counts the loop iterations
still allowed. On 401/403 the caught error is rethrown at once; on 429
the loop sleeps `retryDelay * 2 ^ (attempt + 1)` and retries; on a status
of at least 500 it sleeps `retryDelay * 2 ^ attempt` and retries; any
other error is rethrown at once; when the attempts are exhausted the last
caught error is thrown. -/
def fetchWithRetryGo (resp : ℕ → FetchResult α) (retryDelay : ℕ) :
    ℕ → Option (Option ℕ) → ℕ → RetryTrace α
  | _, lastError, 0 => ⟨.error lastError, 0, []⟩
  | attempt, _, remaining + 1 =>
    match resp attempt with
    | .success p => ⟨.ok p, 1, []⟩
    | .httpError st =>
      if st = some 401 ∨ st = some 403 then ⟨.error (some st), 1, []⟩
      else if st = some 429 then
        let t := fetchWithRetryGo resp retryDelay (attempt + 1) (some st) remaining
        ⟨t.result, t.requests + 1, retryDelay * 2 ^ (attempt + 1) :: t.delays⟩
      else if isServerError st then
        let t := fetchWithRetryGo resp retryDelay (attempt + 1) (some st) remaining
        ⟨t.result, t.requests + 1, retryDelay * 2 ^ attempt :: t.delays⟩
      else ⟨.error (some st), 1, []⟩

/-- `_fetchWithRetry(url)`: run the retry loop from attempt 0 with
`lastError` undefined and `maxRetries` iterations allowed. -/
def fetchWithRetry (resp : ℕ → FetchResult α) (maxRetries retryDelay : ℕ) : RetryTrace α :=
  fetchWithRetryGo resp retryDelay 0 none maxRetries

/-- The `results` field of one page response: absent, present but not an
array, or an array of raw contracts. -/
inductive ResultsField (α : Type) where
  | absent
  | nonArray
  | arr (xs : List α)
deriving DecidableEq, Repr

/-- One page response of the paginated endpoint. -/
structure PageResponse (α : Type) where
  results : ResultsField α
  next_url : Option String := none
deriving DecidableEq, Repr

/-- The contracts a page contributes: its results array when
`response.results && Array.isArray(response.results)` holds, else
nothing. -/
def pageResults (p : PageResponse α) : List α :=
  match p.results with
  | .arr xs => xs
  | _ => []

/-- Whether `response.results` is a present array. -/
def resultsIsArray (p : PageResponse α) : Bool :=
  match p.results with
  | .arr _ => true
  | _ => false

/-- Whether the loop continues after this page:
`url = response.next_url || null` followed by `while (url)`, so an absent
or empty `next_url` stops the loop. -/
def pageHasNext (p : PageResponse α) : Bool :=
  strTruthy p.next_url

/-- `_fetchAllPages`: the argument lists the successive responses the
server returns for the successive URLs the loop fetches, starting from
the initial URL. Each page with an array `results` field contributes its
elements in order; the loop follows `next_url` until it is falsy (if the
loop would continue past the supplied responses, the model stops with
what was accumulated). -/
def fetchAllPages : List (PageResponse α) → List α
  | [] => []
  | p :: rest => pageResults p ++ (if pageHasNext p then fetchAllPages rest else [])

/-- The pages the pagination loop actually consumes: the first page and,
as long as `next_url` is truthy, the following ones. -/
def visitedPages : List (PageResponse α) → List (PageResponse α)
  | [] => []
  | p :: rest => p :: (if pageHasNext p then visitedPages rest else [])

/-- Attach the underlying ticker to a raw result, as the fetch step does:
`if (!r._ticker) r._ticker = ticker`. -/
def attachTicker (t : String) (r : Raw) : Raw :=
  if strTruthy r.tickerHint then r else { r with tickerHint := some t }

/-- `getOptionsChainForTickers`: process the tickers in batches of size
`concurrency`; each ticker whose chain fetch succeeds contributes its
results (with the ticker attached) to `allResults` in order, and each
ticker whose fetch throws is recorded in `errors` with the thrown status
instead — the surrounding try/catch captures every error, whatever its
status. `fetchChain t` is the outcome of `getOptionsChain(t, params)`
for ticker `t`. -/
def getOptionsChainForTickers (tickers : List String) (concurrency : ℕ)
    (fetchChain : String → Except (Option ℕ) (List Raw)) :
    List Raw × List (String × Option ℕ) :=
  let tickerBatches := chunk tickers concurrency
  tickerBatches.foldl
    (fun acc batch =>
      batch.foldl
        (fun acc ticker =>
          match fetchChain ticker with
          | .ok results => (acc.1 ++ results.map (attachTicker ticker), acc.2)
          | .error e => (acc.1, acc.2 ++ [(ticker, e)]))
        acc)
    ([], [])

/-- The contracts a single ticker contributes to the aggregated result:
its fetched chain on success, nothing on failure. -/
def perTickerResults (fetchChain : String → Except (Option ℕ) (List Raw))
    (t : String) : List Raw :=
  match fetchChain t with
  | .ok rs => rs.map (attachTicker t)
  | .error _ => []

/-- The error record a single ticker contributes, if any. -/
def perTickerError (fetchChain : String → Except (Option ℕ) (List Raw))
    (t : String) : Option (String × Option ℕ) :=
  match fetchChain t with
  | .ok _ => none
  | .error e => some (t, e)

/-! The sorter of app.js (`_sortContracts`) as a stable sort with the JS
comparator. -/

/-- A nullable number as the JS value stored in a contract field. -/
def numOrNull (v : Option ℚ) : JSVal :=
  match v with
  | some q => .num q
  | none => .null

/-- Dynamic field access `contract[field]` for the fields of a
normalized contract; an unknown name reads as undefined, which the
comparator treats like null. -/
def contractGetField (c : Contract) (field : String) : JSVal :=
  match field with
  | "contractTicker" => .str c.contractTicker
  | "underlying" => .str c.underlying
  | "type" => .str c.type
  | "strike" => numOrNull c.strike
  | "expiration" => .str c.expiration
  | "dte" => (match c.dte with | some z => .num (z : ℚ) | none => .null)
  | "bid" => numOrNull c.bid
  | "ask" => numOrNull c.ask
  | "mid" => numOrNull c.mid
  | "last" => numOrNull c.last
  | "spread" => numOrNull c.spread
  | "spreadPct" => numOrNull c.spreadPct
  | "iv" => numOrNull c.iv
  | "delta" => numOrNull c.delta
  | "gamma" => numOrNull c.gamma
  | "theta" => numOrNull c.theta
  | "vega" => numOrNull c.vega
  | "volume" => numOrNull c.volume
  | "openInterest" => numOrNull c.openInterest
  | "underlyingPrice" => numOrNull c.underlyingPrice
  | "breakEven" => numOrNull c.breakEven
  | "moneyness" => .str c.moneyness
  | _ => .null

/-- The effective sign of the `_sortContracts` comparator. Nulls compare
equal to each other, and a null on either side sorts after anything
non-null, regardless of direction. Otherwise the comparator subtracts:
`aVal - bVal` for direction "asc" and `bVal - aVal` otherwise. A string
operand makes the subtraction NaN (the strings stored in contract fields
are not numeric literals), and the ECMAScript sort treats a NaN
comparator value as 0, so a pair involving a string compares as equal. -/
def sortCompare (direction : String) (aVal bVal : JSVal) : ℚ :=
  match aVal, bVal with
  | .null, .null => 0
  | .null, _ => 1
  | _, .null => -1
  | .num a, .num b => if direction = "asc" then a - b else b - a
  | _, _ => 0

/-- Insert `x` into a list, keeping every element `y` with `before y x`
ahead of it: the insertion step of a stable sort for the strict
"comparator is negative" order. -/
def jsOrderedInsert (before : α → α → Bool) (x : α) : List α → List α
  | [] => [x]
  | y :: ys => if before y x then y :: jsOrderedInsert before x ys else x :: y :: ys

/-- A stable insertion sort. ECMAScript 2019 requires
`Array.prototype.sort` to be stable, and for a consistent comparator
every stable sort produces this result: ties (comparator 0 or NaN) keep
their input order. -/
def jsStableSort (before : α → α → Bool) : List α → List α
  | [] => []
  | x :: xs => jsOrderedInsert before x (jsStableSort before xs)

/-- `_sortContracts(contracts, field, direction)`: a sorted copy of the
list under the JS comparator on `contract[field]`. -/
def sortContracts (contracts : List Contract) (field : String)
    (direction : String) : List Contract :=
  jsStableSort
    (fun a b =>
      decide (sortCompare direction (contractGetField a field) (contractGetField b field) < 0))
    contracts

/-! The filter functions of filters.js. The `filterName` string attached
to each predicate is diagnostic-only and omitted. A bound that the chain
builder fills with JS Infinity is modelled as ⊤ in `WithTop ℚ`. -/

/-- filters.js priceRange: a null or zero price on the chosen field is
excluded; a string value compares as NaN and is likewise excluded; else
the price must lie in the inclusive range. -/
def priceRange (min : ℚ) (max : WithTop ℚ) (field : String) (c : Contract) : Bool :=
  match contractGetField c field with
  | .num price =>
    if price = 0 then false
    else decide (min ≤ price) && decide ((price : WithTop ℚ) ≤ max)
  | _ => false

/-- filters.js hasPrice: the field must be non-null and positive (a
string value compares as NaN and fails). -/
def hasPrice (field : String) (c : Contract) : Bool :=
  match contractGetField c field with
  | .num price => decide (0 < price)
  | _ => false

/-- ToNumber of a nullable dte as used by the bare comparisons
`contract.dte >= days`: a null dte coerces to 0. -/
def dteNumber (v : Option ℤ) : ℚ :=
  match v with
  | some z => (z : ℚ)
  | none => 0

/-- filters.js minDte (no null guard in the source). -/
def minDte (days : ℚ) (c : Contract) : Bool :=
  decide (dteNumber c.dte ≥ days)

/-- filters.js maxDte (no null guard in the source). -/
def maxDte (days : ℚ) (c : Contract) : Bool :=
  decide (dteNumber c.dte ≤ days)

/-- filters.js ivRange: contracts missing IV data are not excluded. -/
def ivRange (min : ℚ) (max : WithTop ℚ) (c : Contract) : Bool :=
  match c.iv with
  | none => true
  | some iv => decide (min ≤ iv) && decide ((iv : WithTop ℚ) ≤ max)

/-- filters.js deltaRange: tested on the absolute delta; contracts
missing delta data are not excluded. -/
def deltaRange (min max : ℚ) (c : Contract) : Bool :=
  match c.delta with
  | none => true
  | some d => decide (min ≤ |d|) && decide (|d| ≤ max)

/-- filters.js minOpenInterest: missing open interest is not excluded. -/
def minOpenInterest (min : ℚ) (c : Contract) : Bool :=
  match c.openInterest with
  | none => true
  | some oi => decide (oi ≥ min)

/-- filters.js minVolume: missing volume is not excluded. -/
def minVolume (min : ℚ) (c : Contract) : Bool :=
  match c.volume with
  | none => true
  | some v => decide (v ≥ min)

/-- filters.js maxSpread: missing spread percentage is not excluded. -/
def maxSpread (maxSpreadPct : ℚ) (c : Contract) : Bool :=
  match c.spreadPct with
  | none => true
  | some sp => decide (sp ≤ maxSpreadPct)

/-- filters.js contractType. -/
def contractType (t : String) (c : Contract) : Bool :=
  c.type == t

/-- filters.js industry: permissive when the contract has no industry
metadata (the falsy empty string). -/
def industry (industries : List String) (c : Contract) : Bool :=
  if c.metaIndustry == "" then true else industries.contains c.metaIndustry

/-- filters.js country: permissive when the contract has no country
metadata. -/
def country (countries : List String) (c : Contract) : Bool :=
  if c.metaCountry == "" then true else countries.contains c.metaCountry

/-- filters.js applyFilters: keep the contracts satisfying every
predicate of the chain. -/
def applyFilters (contracts : List Contract) (filterFns : List (Contract → Bool)) :
    List Contract :=
  contracts.filter (fun contract => filterFns.all (fun fn => fn contract))

/-- The scan parameter object, in the shape `createFilterChain` reads and
`scan` produces after merging with the defaults of config.js. Parameters
the chain builder never reads (expiration bounds, sort, tickers) are
carried for the orchestrator. -/
structure ScanParams where
  contractType : String := ""
  expirationGte : Option String := none
  expirationLte : Option String := none
  priceMin : Option ℚ := none
  priceMax : Option ℚ := none
  priceField : Option String := none
  dteMin : Option ℚ := none
  dteMax : Option ℚ := none
  ivMin : Option ℚ := none
  ivMax : Option ℚ := none
  deltaMin : Option ℚ := none
  deltaMax : Option ℚ := none
  minOpenInterest : Option ℚ := none
  minVolume : Option ℚ := none
  maxSpreadPct : Option ℚ := none
  sortBy : String := "ask"
  sortDir : String := "asc"
  industries : Option (List String) := none
  countries : Option (List String) := none
  tickers : Option (List String) := none
deriving DecidableEq, Repr

/-- The JS default expression `v ?? Infinity` for a nullable bound: null
becomes ⊤. -/
def orInfinity (v : Option ℚ) : WithTop ℚ :=
  match v with
  | some q => (q : WithTop ℚ)
  | none => ⊤

/-- The JS default expression `v || dflt` for a nullable string. -/
def orString (v : Option String) (dflt : String) : String :=
  if strTruthy v then v.getD "" else dflt

/-- filters.js createFilterChain: emit each predicate only when its
parameters are present, in the source order (price range, price
presence, dte bounds, IV range, delta range, open interest, volume,
spread, contract type, industry allow-list, country allow-list). -/
def createFilterChain (params : ScanParams) : List (Contract → Bool) :=
  (if params.priceMin.isSome || params.priceMax.isSome then
    [priceRange (params.priceMin.getD 0) (orInfinity params.priceMax)
      (orString params.priceField "ask")]
  else [])
  ++ (if strTruthy params.priceField then [hasPrice (params.priceField.getD "")] else [])
  ++ (match params.dteMin with
      | some days => [minDte days]
      | none => [])
  ++ (match params.dteMax with
      | some days => [maxDte days]
      | none => [])
  ++ (if params.ivMin.isSome || params.ivMax.isSome then
    [ivRange (params.ivMin.getD 0) (orInfinity params.ivMax)]
  else [])
  ++ (if params.deltaMin.isSome || params.deltaMax.isSome then
    [deltaRange (params.deltaMin.getD 0) (params.deltaMax.getD 1)]
  else [])
  ++ (match params.minOpenInterest with
      | some m => if 0 < m then [minOpenInterest m] else []
      | none => [])
  ++ (match params.minVolume with
      | some m => if 0 < m then [minVolume m] else []
      | none => [])
  ++ (match params.maxSpreadPct with
      | some m => [maxSpread m]
      | none => [])
  ++ (if params.contractType ≠ "" then [contractType params.contractType] else [])
  ++ (match params.industries with
      | some l => if 0 < l.length then [industry l] else []
      | none => [])
  ++ (match params.countries with
      | some l => if 0 < l.length then [country l] else []
      | none => [])

/-! The scan orchestrator of app.js. -/

/-- The summary statistics `scan` packages with its result; the wall
clock fields (scan duration, timestamp) are outside the model. -/
structure SummaryStats where
  totalFetched : ℕ
  afterFilters : ℕ
  tickersScanned : ℕ
deriving DecidableEq, Repr

/-- The value `scan` returns. -/
structure ScanResult where
  contracts : List Contract
  stats : SummaryStats
  params : ScanParams
deriving DecidableEq, Repr

/-- The ticker resolution step of `scan`:
`scanParams.tickers && scanParams.tickers.length > 0` — a null override
and a provided empty override both fall back to mapping the configured
universe to its tickers. -/
def resolveTickers (params : ScanParams) (universeList : List UniverseEntry) :
    List String :=
  match params.tickers with
  | some ts => if 0 < ts.length then ts else universeList.map (·.ticker)
  | none => universeList.map (·.ticker)

/-- The scan pipeline of app.js with its parameters already merged over
the defaults: resolve tickers, fetch every chain in batches, normalize,
filter, sort, and package the result with its statistics. Progress
callbacks and the debug logging are side effects outside the model; the
per-ticker errors the fetch collects are only logged by the source. -/
def scan (universeList : List UniverseEntry) (scanParams : ScanParams)
    (concurrency : ℕ) (fetchChain : String → Except (Option ℕ) (List Raw))
    (calcDTE : String → ℤ) : ScanResult :=
  let tickersToScan := resolveTickers scanParams universeList
  let fetched := getOptionsChainForTickers tickersToScan concurrency fetchChain
  let rawContracts := fetched.1
  let normalizedContracts :=
    rawContracts.map (fun raw => normalizeContract raw universeList calcDTE)
  let filterChain := createFilterChain scanParams
  let filteredContracts := applyFilters normalizedContracts filterChain
  let sortedContracts :=
    sortContracts filteredContracts scanParams.sortBy scanParams.sortDir
  { contracts := sortedContracts
    stats :=
      { totalFetched := rawContracts.length
        afterFilters := sortedContracts.length
        tickersScanned := tickersToScan.length }
    params := scanParams }

/-! The cache manager (cache.js): an IndexedDB object store of scan
records keyed by `id`, with count and size limits enforced before every
save. The store is modelled in its IndexedDB shape: a list of records in
ascending key order, with at most one record per key. Contract payloads,
labels and parameters do not influence eviction and are elided from the
record; `size` stands for the serialized-size estimate the source
computes from the contracts. The model covers the available, non-failing
storage path (an unavailable cache returns null without touching the
store). -/

/-- A stored scan record: creation time key, timestamp and size. The
source fills `id` with `Date.now()` and `timestamp` with the ISO string
of a clock read in the same statement; both are modelled by the single
`now` value in milliseconds. -/
structure ScanRecord where
  id : ℕ
  timestamp : ℕ
  size : ℕ
deriving DecidableEq, Repr

/-- The configuration of CACHE_CONFIG that drives eviction. -/
structure CacheConfig where
  maxScans : ℕ
  maxSizeBytes : ℕ
deriving DecidableEq, Repr

/-- IndexedDB `store.put(data)` on a store with keyPath `id`: replace the
record with the same key if one exists, else insert in key order. -/
def putRec (store : List ScanRecord) (r : ScanRecord) : List ScanRecord :=
  match store with
  | [] => [r]
  | x :: xs =>
    if x.id = r.id then r :: xs
    else if r.id < x.id then r :: x :: xs
    else x :: putRec xs r

/-- IndexedDB `store.delete(key)`: drop the record with that key, a no-op
when absent. -/
def deleteRec (store : List ScanRecord) (key : ℕ) : List ScanRecord :=
  store.filter (fun r => r.id ≠ key)

/-- The ascending-by-timestamp sort `_enforceStorageLimits` applies
(oldest first); the comparator subtracts the timestamps and the sort is
stable. -/
def sortByTimestampAsc (scans : List ScanRecord) : List ScanRecord :=
  jsStableSort (fun a b => decide (a.timestamp < b.timestamp)) scans

/-- The newest-first sort of `listScans` and `getLatestScan`. -/
def sortByTimestampDesc (scans : List ScanRecord) : List ScanRecord :=
  jsStableSort (fun a b => decide (b.timestamp < a.timestamp)) scans

/-- The total size `reduce((sum, scan) => sum + (scan.size || 0), 0)`. -/
def sizeSum (scans : List ScanRecord) : ℕ :=
  scans.foldl (fun sum scan => sum + scan.size) 0

/-- The first eviction loop of `_enforceStorageLimits`:
`while (scans.length >= maxScans)` shift the oldest scan off the sorted
list and delete it from the store. Returns the store and the remaining
sorted list. With `maxScans = 0` and an empty list the source would
throw on `undefined.id`; the model stops instead (never exercised, the
configured maximum is positive). -/
def evictToCount (maxScans : ℕ) (store : List ScanRecord) :
    List ScanRecord → List ScanRecord × List ScanRecord
  | [] => (store, [])
  | oldest :: rest =>
    if maxScans ≤ rest.length + 1 then
      evictToCount maxScans (deleteRec store oldest.id) rest
    else (store, oldest :: rest)

/-- The second eviction loop of `_enforceStorageLimits`:
`while (totalSize + newSize > maxSizeBytes && scans.length > 0)` shift
the oldest scan, delete it from the store and subtract its size. -/
def evictToSize (maxSizeBytes newSize : ℕ) (store : List ScanRecord) :
    List ScanRecord → ℕ → List ScanRecord × List ScanRecord
  | [], _ => (store, [])
  | oldest :: rest, totalSize =>
    if maxSizeBytes < totalSize + newSize then
      evictToSize maxSizeBytes newSize (deleteRec store oldest.id) rest
        (totalSize - oldest.size)
    else (store, oldest :: rest)

/-- `_enforceStorageLimits(newSize)`: sort all stored scans oldest first,
evict to stay under the count limit, then evict until the remaining total
size plus the new size fits. -/
def enforceStorageLimits (cfg : CacheConfig) (store : List ScanRecord)
    (newSize : ℕ) : List ScanRecord :=
  let scans := sortByTimestampAsc store
  let afterCount := evictToCount cfg.maxScans store scans
  let totalSize := sizeSum afterCount.2
  (evictToSize cfg.maxSizeBytes newSize afterCount.1 afterCount.2 totalSize).1

/-- `saveScan` on an available cache whose write succeeds: both `id` and
`timestamp` are the save-time clock `now`; limits are enforced first,
then the record is put, and the id is returned. -/
def saveScan (cfg : CacheConfig) (store : List ScanRecord) (now : ℕ)
    (size : ℕ) : List ScanRecord × Option ℕ :=
  let id := now
  let timestamp := now
  let afterLimits := enforceStorageLimits cfg store size
  (putRec afterLimits { id := id, timestamp := timestamp, size := size }, some id)

/-- `listScans`: every stored scan, newest first (the projection to
metadata keeps the fields the model carries). -/
def listScans (store : List ScanRecord) : List ScanRecord :=
  sortByTimestampDesc store


/-! Concrete inputs used by counterexamples and witnesses. -/

/-- A raw payload with a present but zero strike and a positive
underlying price. -/
def rawZeroStrike : Raw :=
  { details := some { strike_price := some 0, contract_type := some "call" },
    underlying_asset := some { price := some 100 } }

/-- A raw payload with a present but zero bid, a present ask, and no
provider midpoint. -/
def rawZeroBid : Raw :=
  { last_quote := some { bid := some 0, ask := some 2 } }

/-- A per-ticker fetch environment where ticker "AA" fails with HTTP 401
and every other ticker returns one contract. -/
def fetch401onAA : String → Except (Option ℕ) (List Raw) :=
  fun t => if t = "AA" then Except.error (some 401) else Except.ok [{}]

/-- A response sequence: two HTTP 429 responses, then success. -/
def resp429Twice : ℕ → FetchResult String :=
  fun i => if i < 2 then .httpError (some 429) else .success "payload"

/-! Auxiliary lemmas. -/

lemma chunk_nil (size : ℕ) : chunk ([] : List α) size = [] := by
  rw [chunk]

lemma chunk_cons (a : α) (as : List α) (size : ℕ) (hs : size ≠ 0) :
    chunk (a :: as) size = (a :: as).take size :: chunk ((a :: as).drop size) size := by
  rw [chunk]
  simp [hs]

/-- Joining the chunks of a list gives the list back (for a positive
chunk size). -/
lemma flatten_chunk (size : ℕ) (hs : size ≠ 0) :
    ∀ (n : ℕ) (l : List α), l.length ≤ n → (chunk l size).flatten = l := by
  intro n
  induction n with
  | zero =>
    intro l hl
    have : l = [] := List.eq_nil_of_length_eq_zero (Nat.le_zero.mp hl)
    subst this
    simp [chunk_nil]
  | succ n ih =>
    intro l hl
    match l with
    | [] => simp [chunk_nil]
    | a :: as =>
      rw [chunk_cons a as size hs]
      have hlen : ((a :: as).drop size).length ≤ n := by
        simp only [List.length_drop, List.length_cons]
        simp only [List.length_cons] at hl
        omega
      simp only [List.flatten_cons, ih ((a :: as).drop size) hlen]
      exact List.take_append_drop size (a :: as)

/-- The mid price of a normalized contract, read off the definition. -/
lemma normalize_mid (raw : Raw) (ul : List UniverseEntry) (f : String → ℤ) :
    (normalizeContract raw ul f).mid =
      (match (raw.last_quote.getD {}).midpoint with
       | some m => some m
       | none =>
         match (raw.last_quote.getD {}).bid, (raw.last_quote.getD {}).ask with
         | some b, some a => if b = 0 ∨ a = 0 then none else some ((b + a) / 2)
         | _, _ => none) := rfl

/-! Claim C3: moneyness classification. -/

/-- C3 counterexample. The claim asserts that every normalized contract
with a non-null strike and a non-null underlying price gets a moneyness
in {ITM, ATM, OTM}, ATM exactly within the 2 percent band. The first
conjunct refutes it at a contract whose strike is present but zero: the
JS truthiness guard `!strike` fires and the moneyness is "-". The second
conjunct refutes the ATM characterization at a (non-null, nonzero)
negative underlying price, where the unsigned band test of the claim
holds but the code classifies ITM. -/
theorem c3_moneyness_counterexample :
    ((normalizeContract rawZeroStrike [] (fun _ => 0)).strike = some 0 ∧
     (normalizeContract rawZeroStrike [] (fun _ => 0)).underlyingPrice = some 100 ∧
     (normalizeContract rawZeroStrike [] (fun _ => 0)).moneyness ∉
       (["ITM", "ATM", "OTM"] : List String)) ∧
    (getMoneyness (some 1) (some (-100)) "call" = "ITM" ∧
     |(1 : ℚ) - (-100)| / (-100) ≤ 2 / 100) := by
  have h100 : ¬ ((1 : ℚ) = 0 ∨ (-100 : ℚ) = 0) := by norm_num
  have hpd : ((1 : ℚ) - -100) / (-100) = -(101 / 100) := by norm_num
  have habs : |((1 : ℚ) - -100) / (-100)| = 101 / 100 := by
    rw [hpd, abs_neg, abs_of_pos (show (0 : ℚ) < 101 / 100 by norm_num)]
  refine ⟨by decide, ?_, by norm_num⟩
  simp only [getMoneyness]
  rw [if_neg h100, if_neg (by rw [habs]; norm_num), if_pos trivial,
    if_neg (by rw [hpd]; norm_num)]

/-- C3 (amended): for a non-null, nonzero strike and a non-null,
strictly positive underlying price, the moneyness of getMoneyness (used
verbatim by the normalizer, final conjunct) is one of ITM, ATM, OTM; it
is ATM exactly when the strike is within 2 percent of the underlying
price; outside that band a call is OTM exactly when the strike exceeds
the underlying price and ITM otherwise, and a put the other way round. -/
theorem c3_moneyness_amended (s u : ℚ) (t : String) (hs : s ≠ 0) (hu : 0 < u) :
    getMoneyness (some s) (some u) t ∈ ["ITM", "ATM", "OTM"] ∧
    (getMoneyness (some s) (some u) t = "ATM" ↔ |s - u| / u ≤ 2 / 100) ∧
    (¬ |s - u| / u ≤ 2 / 100 → t = "call" →
      ((getMoneyness (some s) (some u) t = "OTM" ↔ u < s) ∧
       (getMoneyness (some s) (some u) t = "ITM" ↔ s < u))) ∧
    (¬ |s - u| / u ≤ 2 / 100 → t = "put" →
      ((getMoneyness (some s) (some u) t = "OTM" ↔ s < u) ∧
       (getMoneyness (some s) (some u) t = "ITM" ↔ u < s))) ∧
    (∀ (raw : Raw) (ul : List UniverseEntry) (f : String → ℤ),
      (normalizeContract raw ul f).moneyness =
        getMoneyness (raw.details.getD {}).strike_price
          (raw.underlying_asset.getD {}).price
          ((raw.details.getD {}).contract_type.getD "")) := by
  have hu0 : u ≠ 0 := ne_of_gt hu
  have habs : |(s - u) / u| = |s - u| / u := by
    rw [abs_div, abs_of_pos hu]
  have hne : ¬ (s = 0 ∨ u = 0) := by
    rintro (h | h) <;> [exact hs h; exact hu0 h]
  have hgm : getMoneyness (some s) (some u) t =
      (if |s - u| / u ≤ 2 / 100 then "ATM"
       else if t = "call" then
         if (s - u) / u > 0 then "OTM" else "ITM"
       else
         if (s - u) / u < 0 then "OTM" else "ITM") := by
    simp only [getMoneyness, hne, if_false, habs]
  have hpos : (s - u) / u > 0 ↔ u < s := by
    rw [gt_iff_lt, lt_div_iff hu]
    constructor
    · intro h; nlinarith
    · intro h; nlinarith
  have hneg : (s - u) / u < 0 ↔ s < u := by
    rw [div_lt_iff hu]
    constructor
    · intro h; nlinarith
    · intro h; nlinarith
  by_cases hATM : |s - u| / u ≤ 2 / 100
  · refine ⟨?_, ?_, ?_, ?_, fun _ _ _ => rfl⟩
    · rw [hgm, if_pos hATM]; simp
    · rw [hgm, if_pos hATM]; simp [hATM]
    · intro h; exact absurd hATM h
    · intro h; exact absurd hATM h
  · have hsu : s ≠ u := by
      intro h
      apply hATM
      rw [h, sub_self, abs_zero, zero_div]
      norm_num
    refine ⟨?_, ?_, ?_, ?_, fun _ _ _ => rfl⟩
    · rw [hgm, if_neg hATM]
      split <;> split <;> decide
    · rw [hgm, if_neg hATM]
      exact iff_of_false (by split <;> split <;> decide) hATM
    · intro _ hc
      rw [hgm, if_neg hATM, if_pos hc]
      constructor
      · constructor
        · intro h
          by_contra hlt
          rw [if_neg (by rw [hpos]; exact hlt)] at h
          exact absurd h (by decide)
        · intro h
          rw [if_pos (hpos.mpr h)]
      · constructor
        · intro h
          by_contra hlt
          have : u < s := by
            rcases lt_trichotomy s u with h1 | h1 | h1
            · exact absurd h1 hlt
            · exact absurd h1 hsu
            · exact h1
          rw [if_pos (hpos.mpr this)] at h
          exact absurd h (by decide)
        · intro h
          rw [if_neg (by rw [hpos]; exact not_lt_of_gt h)]
    · intro _ hp
      have hc : t ≠ "call" := by rw [hp]; decide
      rw [hgm, if_neg hATM, if_neg hc]
      constructor
      · constructor
        · intro h
          by_contra hlt
          rw [if_neg (by rw [hneg]; exact hlt)] at h
          exact absurd h (by decide)
        · intro h
          rw [if_pos (hneg.mpr h)]
      · constructor
        · intro h
          by_contra hlt
          have : s < u := by
            rcases lt_trichotomy s u with h1 | h1 | h1
            · exact h1
            · exact absurd h1 hsu
            · exact absurd h1 hlt
          rw [if_pos (hneg.mpr this)] at h
          exact absurd h (by decide)
        · intro h
          rw [if_neg (by rw [hneg]; exact not_lt_of_gt h)]

/-- C3 witness: the amended theorem applied at strike 3, underlying
price 100, a call, which is classified ITM. -/
theorem c3_moneyness_witness :
    getMoneyness (some 3) (some 100) "call" = "ITM" := by
  have h := c3_moneyness_amended 3 100 "call" (by norm_num) (by norm_num)
  have hn : ¬ |(3 : ℚ) - 100| / 100 ≤ 2 / 100 := by norm_num
  exact (h.2.2.1 hn rfl).2.mpr (by norm_num)

/-! Claim C4: mid-price computation. -/

/-- C4 counterexample: with a present but zero bid and a present ask and
no provider midpoint, the normalizer produces a null mid, although the
claim demands (bid + ask) / 2 for any present pair, zero included — the
JS condition `bid && ask` conflates a zero price with absence. -/
theorem c4_mid_counterexample :
    (normalizeContract rawZeroBid [] (fun _ => 0)).bid = some 0 ∧
    (normalizeContract rawZeroBid [] (fun _ => 0)).ask = some 2 ∧
    (normalizeContract rawZeroBid [] (fun _ => 0)).mid = none ∧
    (normalizeContract rawZeroBid [] (fun _ => 0)).mid ≠
      some (((0 : ℚ) + 2) / 2) := by
  decide

/-- C4 (amended): the normalizer takes the provider midpoint whenever it
is present; otherwise it computes (bid + ask) / 2 exactly when bid and
ask are both present and both nonzero; in every other case — bid or ask
absent, or either of them zero — mid is null. -/
theorem c4_mid_amended (raw : Raw) (ul : List UniverseEntry) (f : String → ℤ) :
    (∀ m, (raw.last_quote.getD {}).midpoint = some m →
      (normalizeContract raw ul f).mid = some m) ∧
    (∀ b a, (raw.last_quote.getD {}).midpoint = none →
      (raw.last_quote.getD {}).bid = some b →
      (raw.last_quote.getD {}).ask = some a →
      b ≠ 0 → a ≠ 0 →
      (normalizeContract raw ul f).mid = some ((b + a) / 2)) ∧
    ((raw.last_quote.getD {}).midpoint = none →
      ((raw.last_quote.getD {}).bid = none ∨ (raw.last_quote.getD {}).ask = none ∨
       (raw.last_quote.getD {}).bid = some 0 ∨ (raw.last_quote.getD {}).ask = some 0) →
      (normalizeContract raw ul f).mid = none) := by
  refine ⟨?_, ?_, ?_⟩
  · intro m hm
    rw [normalize_mid, hm]
  · intro b a hm hb ha hb0 ha0
    rw [normalize_mid, hm, hb, ha]
    simp [hb0, ha0]
  · intro hm hcase
    rw [normalize_mid, hm]
    rcases hcase with h | h | h | h <;> rw [h] <;>
      rcases hb : (raw.last_quote.getD {}).bid with _ | b <;>
      rcases ha : (raw.last_quote.getD {}).ask with _ | a <;>
      simp_all

/-- C4 witness: the amended theorem applied at a quote with bid 1/10 and
ask 1/5 and no provider midpoint. -/
theorem c4_mid_witness :
    (normalizeContract { last_quote := some { bid := some (1 / 10), ask := some (1 / 5) } }
      [] (fun _ => 0)).mid = some (((1 : ℚ) / 10 + 1 / 5) / 2) :=
  (c4_mid_amended _ [] _).2.1 (1 / 10) (1 / 5) rfl rfl rfl (by norm_num) (by norm_num)

/-! Claim C8: permissive-on-null filters. -/

/-- C8: a null openInterest (respectively volume, iv, delta) never
causes exclusion by minOpenInterest (respectively minVolume, ivRange,
deltaRange); and concretely, a contract with null open interest passes
the filter chain built from a minOpenInterest of 50. -/
theorem c8_permissive_null_filters :
    (∀ (m : ℚ) (c : Contract), c.openInterest = none → minOpenInterest m c = true) ∧
    (∀ (m : ℚ) (c : Contract), c.volume = none → minVolume m c = true) ∧
    (∀ (mi : ℚ) (ma : WithTop ℚ) (c : Contract), c.iv = none → ivRange mi ma c = true) ∧
    (∀ (mi ma : ℚ) (c : Contract), c.delta = none → deltaRange mi ma c = true) ∧
    applyFilters [{}] (createFilterChain { minOpenInterest := some 50 }) = [({} : Contract)] := by
  refine ⟨?_, ?_, ?_, ?_, ?_⟩
  · intro m c h; simp [minOpenInterest, h]
  · intro m c h; simp [minVolume, h]
  · intro mi ma c h; simp [ivRange, h]
  · intro mi ma c h; simp [deltaRange, h]
  · decide

/-- C8 witness: the first conjunct applied to the default contract,
whose open interest is null, with bound 50. -/
theorem c8_permissive_null_witness : minOpenInterest 50 ({} : Contract) = true :=
  c8_permissive_null_filters.1 50 {} rfl

/-! Claim C10: malformed pages during pagination. -/

lemma fetchAllPages_eq_visited (pages : List (PageResponse α)) :
    fetchAllPages pages = ((visitedPages pages).map pageResults).flatten := by
  induction pages with
  | nil => rfl
  | cons p rest ih =>
    simp only [fetchAllPages, visitedPages, List.map_cons, List.flatten_cons]
    by_cases h : pageHasNext p = true
    · simp [h, ih]
    · simp [h]

lemma flatten_map_pageResults (l : List (PageResponse α)) :
    ((l.filter resultsIsArray).map pageResults).flatten = (l.map pageResults).flatten := by
  induction l with
  | nil => rfl
  | cons p rest ih =>
    by_cases h : resultsIsArray p = true
    · simp [List.filter_cons, h, ih]
    · have hp : pageResults p = [] := by
        cases hr : p.results <;> simp [pageResults, resultsIsArray, hr] at h ⊢
      simp [List.filter_cons, h, hp, ih]

/-- C10: a page whose `results` field is absent or not an array does not
fail pagination: it contributes nothing while the loop still follows its
`next_url`; and in general the returned list is the in-order
concatenation of the results arrays of the well-formed pages the loop
visits. -/
theorem c10_malformed_page_tolerated {α : Type} :
    (∀ (p : PageResponse α) (rest : List (PageResponse α)),
      p.results = .absent ∨ p.results = .nonArray →
      fetchAllPages (p :: rest) = (if pageHasNext p then fetchAllPages rest else [])) ∧
    (∀ pages : List (PageResponse α),
      fetchAllPages pages =
        (((visitedPages pages).filter resultsIsArray).map pageResults).flatten) := by
  constructor
  · rintro p rest (h | h) <;> simp [fetchAllPages, pageResults, h]
  · intro pages
    rw [flatten_map_pageResults, ← fetchAllPages_eq_visited]

/-- C10 witness: a malformed first page with a next link, then a
well-formed final page; pagination returns the results of the final
page. -/
theorem c10_malformed_page_witness :
    fetchAllPages [⟨.absent, some "next"⟩, (⟨.arr [1, 2], none⟩ : PageResponse ℕ)] =
      [1, 2] := by
  have h := (c10_malformed_page_tolerated (α := ℕ)).1 ⟨.absent, some "next"⟩
    [⟨.arr [1, 2], none⟩] (Or.inl rfl)
  rw [h]
  decide

/-! Claim C2: the retry policy of the fetch client. -/

lemma retry429_chain {α : Type} (resp : ℕ → FetchResult α) (d : ℕ) :
    ∀ (rem a : ℕ) (e : Option (Option ℕ)),
      (∀ i, a ≤ i → i < a + rem → resp i = .httpError (some 429)) →
      fetchWithRetryGo resp d a e rem =
        ⟨.error (if rem = 0 then e else some (some 429)), rem,
         (List.range rem).map (fun i => d * 2 ^ (a + i + 1))⟩ := by
  intro rem
  induction rem with
  | zero => intro a e _; simp [fetchWithRetryGo]
  | succ n ih =>
    intro a e hresp
    have ha : resp a = .httpError (some 429) := hresp a le_rfl (by omega)
    simp only [fetchWithRetryGo, ha, if_true]
    rw [ih (a + 1) (some (some 429)) (fun i h1 h2 => hresp i (by omega) (by omega))]
    simp only [ite_self, List.range_succ_eq_map, List.map_cons, List.map_map]
    refine congrArg₂ _ rfl (congrArg₂ _ ?_ (congrArg₂ _ ?_ ?_))
    · simp
    · norm_num
    · refine List.map_congr_left (fun i _ => ?_)
      have : a + 1 + i + 1 = a + Nat.succ i + 1 := by omega
      simp [Function.comp, this]

/-- C2: the retry policy. A success returns at once; a 401 or 403 is
rethrown with no further request; a 429 sleeps retryDelay times
2 ^ (attempt + 1) and retries; a status of at least 500 sleeps
retryDelay times 2 ^ attempt and retries; any other error is rethrown at
once; with the attempts exhausted the last error is thrown, so a run of
maxRetries straight 429 responses fails with the 429 after exactly
maxRetries requests; and two 429 responses followed by a success under
maxRetries 3 return the payload after exactly 3 requests. -/
theorem c2_retry_policy {α : Type} :
    (∀ (resp : ℕ → FetchResult α) (d a r : ℕ) (e : Option (Option ℕ)) (p : α),
      resp a = .success p →
      fetchWithRetryGo resp d a e (r + 1) = ⟨.ok p, 1, []⟩) ∧
    (∀ (resp : ℕ → FetchResult α) (d a r : ℕ) (e : Option (Option ℕ)) (st : Option ℕ),
      resp a = .httpError st → (st = some 401 ∨ st = some 403) →
      fetchWithRetryGo resp d a e (r + 1) = ⟨.error (some st), 1, []⟩) ∧
    (∀ (resp : ℕ → FetchResult α) (d a r : ℕ) (e : Option (Option ℕ)),
      resp a = .httpError (some 429) →
      fetchWithRetryGo resp d a e (r + 1) =
        ⟨(fetchWithRetryGo resp d (a + 1) (some (some 429)) r).result,
         (fetchWithRetryGo resp d (a + 1) (some (some 429)) r).requests + 1,
         d * 2 ^ (a + 1) :: (fetchWithRetryGo resp d (a + 1) (some (some 429)) r).delays⟩) ∧
    (∀ (resp : ℕ → FetchResult α) (d a r : ℕ) (e : Option (Option ℕ)) (v : ℕ),
      resp a = .httpError (some v) → 500 ≤ v →
      fetchWithRetryGo resp d a e (r + 1) =
        ⟨(fetchWithRetryGo resp d (a + 1) (some (some v)) r).result,
         (fetchWithRetryGo resp d (a + 1) (some (some v)) r).requests + 1,
         d * 2 ^ a :: (fetchWithRetryGo resp d (a + 1) (some (some v)) r).delays⟩) ∧
    (∀ (resp : ℕ → FetchResult α) (d a r : ℕ) (e : Option (Option ℕ)) (st : Option ℕ),
      resp a = .httpError st →
      ¬(st = some 401 ∨ st = some 403) → st ≠ some 429 → isServerError st = false →
      fetchWithRetryGo resp d a e (r + 1) = ⟨.error (some st), 1, []⟩) ∧
    (∀ (resp : ℕ → FetchResult α) (d a : ℕ) (e : Option (Option ℕ)),
      fetchWithRetryGo resp d a e 0 = ⟨.error e, 0, []⟩) ∧
    (∀ (resp : ℕ → FetchResult α) (d n : ℕ), 1 ≤ n →
      (∀ i, i < n → resp i = .httpError (some 429)) →
      fetchWithRetry resp n d =
        ⟨.error (some (some 429)), n, (List.range n).map (fun i => d * 2 ^ (i + 1))⟩) ∧
    (∀ d : ℕ, fetchWithRetry resp429Twice 3 d = ⟨.ok "payload", 3, [d * 2 ^ 1, d * 2 ^ 2]⟩) := by
  refine ⟨?_, ?_, ?_, ?_, ?_, ?_, ?_, ?_⟩
  · intro resp d a r e p h
    simp [fetchWithRetryGo, h]
  · intro resp d a r e st h hst
    simp only [fetchWithRetryGo, h]
    rw [if_pos hst]
  · intro resp d a r e h
    simp [fetchWithRetryGo, h]
  · intro resp d a r e v h hv
    have h401 : ¬((some v : Option ℕ) = some 401 ∨ (some v : Option ℕ) = some 403) := by
      rintro (hc | hc) <;> (injection hc with hc; omega)
    have h429 : ¬((some v : Option ℕ) = some 429) := by
      intro hc; injection hc with hc; omega
    simp only [fetchWithRetryGo, h]
    rw [if_neg h401, if_neg h429, if_pos (by simp [isServerError, hv])]
  · intro resp d a r e st h h1 h2 h3
    simp only [fetchWithRetryGo, h]
    rw [if_neg h1, if_neg h2, if_neg (by simp [h3])]
  · intro resp d a e
    simp [fetchWithRetryGo]
  · intro resp d n hn hresp
    have h := retry429_chain resp d n 0 none (fun i h1 h2 => hresp i (by omega))
    rw [fetchWithRetry, h, if_neg (by omega)]
    simp
  · intro d
    norm_num [fetchWithRetry, fetchWithRetryGo, resp429Twice]

/-- C2 witness: a run of two straight 429 responses with maxRetries 2
and base delay 5 fails with the 429 after exactly 2 requests, sleeping
10 then 20 milliseconds. -/
theorem c2_retry_policy_witness :
    fetchWithRetry (fun _ => FetchResult.httpError (some 429) : ℕ → FetchResult String) 2 5 =
      ⟨.error (some (some 429)), 2, [10, 20]⟩ := by
  have h := (c2_retry_policy (α := String)).2.2.2.2.2.2.1
    (fun _ => FetchResult.httpError (some 429)) 5 2 (by norm_num) (fun i _ => rfl)
  rw [h]
  decide

/-! Claim C5: the sort step. -/

lemma jsOrderedInsert_perm (before : α → α → Bool) (x : α) (l : List α) :
    List.Perm (jsOrderedInsert before x l) (x :: l) := by
  induction l with
  | nil => rfl
  | cons y ys ih =>
    simp only [jsOrderedInsert]
    by_cases h : before y x = true
    · rw [if_pos h]
      exact (ih.cons y).trans (List.Perm.swap x y ys)
    · rw [if_neg h]

lemma jsStableSort_perm (before : α → α → Bool) (l : List α) :
    List.Perm (jsStableSort before l) l := by
  induction l with
  | nil => rfl
  | cons x xs ih => exact (jsOrderedInsert_perm before x _).trans (ih.cons x)

lemma jsOrderedInsert_pairwise {before : α → α → Bool} {x : α} {l : List α}
    (hl : l.Pairwise (fun a b => before b a = false))
    (htrans : ∀ y ∈ l, ∀ z ∈ l, before y x = false → before z y = false →
      before z x = false)
    (hasym : ∀ y ∈ l, before y x = true → before x y = false) :
    (jsOrderedInsert before x l).Pairwise (fun a b => before b a = false) := by
  induction l with
  | nil => simp [jsOrderedInsert]
  | cons y ys ih =>
    rcases List.pairwise_cons.mp hl with ⟨hy, hys⟩
    simp only [jsOrderedInsert]
    by_cases h : before y x = true
    · rw [if_pos h]
      refine List.pairwise_cons.mpr ⟨?_, ?_⟩
      · intro b hb
        rcases List.mem_cons.mp ((jsOrderedInsert_perm before x ys).mem_iff.mp hb) with
          rfl | hbys
        · exact hasym y (List.mem_cons_self _ _) h
        · exact hy b hbys
      · exact ih hys
          (fun a ha c hc => htrans a (List.mem_cons_of_mem _ ha) c (List.mem_cons_of_mem _ hc))
          (fun a ha => hasym a (List.mem_cons_of_mem _ ha))
    · rw [if_neg h]
      have hfalse : before y x = false := by
        revert h; cases before y x <;> simp
      refine List.pairwise_cons.mpr ⟨?_, hl⟩
      intro b hb
      rcases List.mem_cons.mp hb with rfl | hbys
      · exact hfalse
      · exact htrans y (List.mem_cons_self _ _) b (List.mem_cons_of_mem _ hbys) hfalse
          (hy b hbys)

lemma jsStableSort_pairwise {before : α → α → Bool} {l : List α}
    (htrans : ∀ a ∈ l, ∀ b ∈ l, ∀ c ∈ l, before b a = false → before c b = false →
      before c a = false)
    (hasym : ∀ a ∈ l, ∀ b ∈ l, before a b = true → before b a = false) :
    (jsStableSort before l).Pairwise (fun a b => before b a = false) := by
  induction l with
  | nil => simp [jsStableSort]
  | cons x xs ih =>
    simp only [jsStableSort]
    have hsub : ∀ a, a ∈ jsStableSort before xs → a ∈ xs :=
      fun a ha => (jsStableSort_perm before xs).mem_iff.mp ha
    apply jsOrderedInsert_pairwise
    · exact ih
        (fun a ha b hb c hc =>
          htrans a (List.mem_cons_of_mem _ ha) b (List.mem_cons_of_mem _ hb) c
            (List.mem_cons_of_mem _ hc))
        (fun a ha b hb => hasym a (List.mem_cons_of_mem _ ha) b (List.mem_cons_of_mem _ hb))
    · intro y hy z hz h1 h2
      exact htrans x (List.mem_cons_self _ _) y (List.mem_cons_of_mem _ (hsub y hy)) z
        (List.mem_cons_of_mem _ (hsub z hz)) h1 h2
    · intro y hy h
      exact hasym y (List.mem_cons_of_mem _ (hsub y hy)) x (List.mem_cons_self _ _) h

lemma sortCompare_trans (d : String) :
    ∀ {va vb vc : JSVal},
      (va = .null ∨ ∃ q, va = .num q) →
      (vb = .null ∨ ∃ q, vb = .num q) →
      (vc = .null ∨ ∃ q, vc = .num q) →
      0 ≤ sortCompare d vb va → 0 ≤ sortCompare d vc vb → 0 ≤ sortCompare d vc va := by
  rintro va vb vc (rfl | ⟨qa, rfl⟩) (rfl | ⟨qb, rfl⟩) (rfl | ⟨qc, rfl⟩) h1 h2 <;>
    simp only [sortCompare] at h1 h2 ⊢ <;>
    first
      | linarith
      | (split_ifs at h1 h2 ⊢ <;> linarith)

lemma sortCompare_asym (d : String) :
    ∀ {va vb : JSVal},
      (va = .null ∨ ∃ q, va = .num q) →
      (vb = .null ∨ ∃ q, vb = .num q) →
      sortCompare d va vb < 0 → 0 ≤ sortCompare d vb va := by
  rintro va vb (rfl | ⟨qa, rfl⟩) (rfl | ⟨qb, rfl⟩) h <;>
    simp only [sortCompare] at h ⊢ <;>
    first
      | linarith
      | (split_ifs at h ⊢ <;> linarith)

/-- C5 counterexample: sorting by a string-valued field does not compare
lexicographically — the comparator subtracts the strings, the
subtraction is NaN, the sort treats NaN as a tie, and the stable sort
leaves the input order unchanged, so "b" stays ahead of "a" in an
ascending sort. -/
theorem c5_sort_counterexample :
    (sortContracts [{ underlying := "b" }, { underlying := "a" }] "underlying" "asc").map
        (fun c => c.underlying) = ["b", "a"] ∧
    (sortContracts [{ underlying := "b" }, { underlying := "a" }] "underlying" "asc").map
        (fun c => c.underlying) ≠ ["a", "b"] := by
  decide

/-- C5 (amended): the sort step returns a permutation of its input;
contracts with a null sort-field value come last regardless of
direction; and for numeric sort-field values the order is ascending for
direction "asc" and descending for "desc". String-valued fields are not
reordered at all (see the counterexample), so the hypothesis restricts
the field values to numbers and nulls. -/
theorem c5_sort_amended (l : List Contract) (field direction : String)
    (hkeys : ∀ c ∈ l, contractGetField c field = .null ∨
      ∃ q, contractGetField c field = .num q) :
    List.Perm (sortContracts l field direction) l ∧
    (sortContracts l field direction).Pairwise
      (fun a b => contractGetField a field = .null → contractGetField b field = .null) ∧
    (direction = "asc" →
      (sortContracts l field direction).Pairwise
        (fun a b => ∀ x y, contractGetField a field = .num x →
          contractGetField b field = .num y → x ≤ y)) ∧
    (direction = "desc" →
      (sortContracts l field direction).Pairwise
        (fun a b => ∀ x y, contractGetField a field = .num x →
          contractGetField b field = .num y → y ≤ x)) := by
  have hperm : List.Perm (sortContracts l field direction) l := jsStableSort_perm _ l
  have hkeys' : ∀ c ∈ sortContracts l field direction,
      contractGetField c field = .null ∨ ∃ q, contractGetField c field = .num q :=
    fun c hc => hkeys c (hperm.mem_iff.mp hc)
  have hP : (sortContracts l field direction).Pairwise
      (fun a b =>
        decide (sortCompare direction (contractGetField b field)
          (contractGetField a field) < 0) = false) := by
    apply jsStableSort_pairwise
    · intro a ha b hb c hc h1 h2
      rw [decide_eq_false_iff_not, not_lt] at h1 h2 ⊢
      exact sortCompare_trans direction (hkeys a ha) (hkeys b hb) (hkeys c hc) h1 h2
    · intro a ha b hb h
      rw [decide_eq_true_eq] at h
      rw [decide_eq_false_iff_not, not_lt]
      exact sortCompare_asym direction (hkeys a ha) (hkeys b hb) h
  refine ⟨hperm, ?_, ?_, ?_⟩
  · refine hP.imp_of_mem ?_
    intro a b ha hb h hnull
    rw [decide_eq_false_iff_not, not_lt] at h
    rcases hkeys' b hb with hb0 | ⟨q, hq⟩
    · exact hb0
    · rw [hnull, hq] at h
      simp only [sortCompare] at h
      linarith
  · intro hd
    refine hP.imp_of_mem ?_
    intro a b _ _ h x y hx hy
    rw [decide_eq_false_iff_not, not_lt] at h
    rw [hx, hy] at h
    simp only [sortCompare, hd, if_true] at h
    linarith
  · intro hd
    refine hP.imp_of_mem ?_
    intro a b _ _ h x y hx hy
    rw [decide_eq_false_iff_not, not_lt] at h
    rw [hx, hy] at h
    have : direction ≠ "asc" := by rw [hd]; decide
    simp only [sortCompare, this, if_false] at h
    linarith

/-- C5 witness: the amended theorem applied to two contracts with
numeric ask values; the sort is a permutation of the input. -/
theorem c5_sort_witness :
    List.Perm (sortContracts [{ ask := some 3 }, { ask := some 1 }] "ask" "asc")
      [({ ask := some 3 } : Contract), { ask := some 1 }] :=
  (c5_sort_amended _ "ask" "asc" (by
    intro c hc
    rcases List.mem_cons.mp hc with rfl | hc
    · exact Or.inr ⟨3, rfl⟩
    · rcases List.mem_cons.mp hc with rfl | hc
      · exact Or.inr ⟨1, rfl⟩
      · cases hc)).1

/-! Claims C1 and C9: the batched multi-ticker fetch and the ticker
resolution of scan. -/

lemma batch_foldl (f : String → Except (Option ℕ) (List Raw)) :
    ∀ (batch : List String) (acc : List Raw × List (String × Option ℕ)),
      batch.foldl
        (fun acc ticker =>
          match f ticker with
          | .ok results => (acc.1 ++ results.map (attachTicker ticker), acc.2)
          | .error e => (acc.1, acc.2 ++ [(ticker, e)])) acc =
      (acc.1 ++ (batch.map (perTickerResults f)).flatten,
       acc.2 ++ batch.filterMap (perTickerError f)) := by
  intro batch
  induction batch with
  | nil => intro acc; simp
  | cons t ts ih =>
    intro acc
    cases hf : f t with
    | ok rs =>
      simp only [List.foldl_cons, hf]
      rw [ih]
      simp [perTickerResults, perTickerError, hf]
    | error e =>
      simp only [List.foldl_cons, hf]
      rw [ih]
      simp [perTickerResults, perTickerError, hf]

lemma batches_foldl (f : String → Except (Option ℕ) (List Raw)) :
    ∀ (bs : List (List String)) (acc : List Raw × List (String × Option ℕ)),
      bs.foldl
        (fun acc batch =>
          batch.foldl
            (fun acc ticker =>
              match f ticker with
              | .ok results => (acc.1 ++ results.map (attachTicker ticker), acc.2)
              | .error e => (acc.1, acc.2 ++ [(ticker, e)])) acc) acc =
      (acc.1 ++ (bs.flatten.map (perTickerResults f)).flatten,
       acc.2 ++ bs.flatten.filterMap (perTickerError f)) := by
  intro bs
  induction bs with
  | nil => intro acc; simp
  | cons b bs ih =>
    intro acc
    simp only [List.foldl_cons]
    rw [batch_foldl f b acc, ih]
    simp [List.flatten_append]

/-- The batched fetch, flattened: with a positive concurrency, the
aggregated results are the per-ticker contributions in ticker order
(failures contributing nothing) and the error list holds exactly the
failing tickers, in order, with their thrown statuses. -/
lemma getOptionsChainForTickers_eq (tickers : List String) (concurrency : ℕ)
    (hc : concurrency ≠ 0) (f : String → Except (Option ℕ) (List Raw)) :
    getOptionsChainForTickers tickers concurrency f =
      ((tickers.map (perTickerResults f)).flatten,
       tickers.filterMap (perTickerError f)) := by
  simp only [getOptionsChainForTickers]
  rw [batches_foldl f (chunk tickers concurrency) ([], []),
    flatten_chunk concurrency hc tickers.length tickers le_rfl]
  simp

/-- C1 counterexample. The claim asserts that a credential error (HTTP
401) on one ticker propagates and aborts the whole scan. It does not:
the per-ticker try/catch of getOptionsChainForTickers captures every
error, the 401 on "AA" is recorded in the error list exactly like any
other failure, the results of "BB" are still returned, and scan()
completes with stats counting only the fetched contracts. -/
theorem c1_credential_counterexample :
    getOptionsChainForTickers ["AA", "BB"] 2 fetch401onAA =
      ([{ tickerHint := some "BB" }], [("AA", some 401)]) ∧
    (scan [] { tickers := some ["AA", "BB"] } 2 fetch401onAA (fun _ => 0)).stats.totalFetched
      = 1 := by
  constructor
  · rw [getOptionsChainForTickers_eq _ 2 (by norm_num) fetch401onAA]
    decide
  · simp only [scan]
    rw [getOptionsChainForTickers_eq _ 2 (by norm_num) fetch401onAA]
    decide

/-- C1 (amended): at the fetch-retry layer a credential error is not
retried, but getOptionsChainForTickers catches it per ticker like every
other failure: for any positive concurrency and any per-ticker outcome,
every failing ticker (credential failures included) is isolated — it is
recorded in the error list and contributes zero contracts — the
results of the successful tickers are all returned in order, and scan()
completes with `totalFetched` counting exactly the successfully fetched
contracts. -/
theorem c1_per_ticker_isolation :
    (∀ (tickers : List String) (concurrency : ℕ)
      (f : String → Except (Option ℕ) (List Raw)), concurrency ≠ 0 →
      getOptionsChainForTickers tickers concurrency f =
        ((tickers.map (perTickerResults f)).flatten,
         tickers.filterMap (perTickerError f))) ∧
    (∀ (ul : List UniverseEntry) (sp : ScanParams) (concurrency : ℕ)
      (f : String → Except (Option ℕ) (List Raw)) (dteF : String → ℤ),
      concurrency ≠ 0 →
      (scan ul sp concurrency f dteF).stats.totalFetched =
        (((resolveTickers sp ul).map (perTickerResults f)).flatten).length) := by
  constructor
  · intro tickers concurrency f hc
    exact getOptionsChainForTickers_eq tickers concurrency hc f
  · intro ul sp concurrency f dteF hc
    simp only [scan]
    rw [getOptionsChainForTickers_eq _ concurrency hc f]

/-- C1 witness: the isolation theorem applied to one failing and one
succeeding ticker at concurrency 2. -/
theorem c1_per_ticker_isolation_witness :
    getOptionsChainForTickers ["AA", "BB"] 2 fetch401onAA =
      ((["AA", "BB"].map (perTickerResults fetch401onAA)).flatten,
       ["AA", "BB"].filterMap (perTickerError fetch401onAA)) :=
  c1_per_ticker_isolation.1 ["AA", "BB"] 2 fetch401onAA (by norm_num)

/-- C9 counterexample. The claim asserts that scan resolves its ticker
list to the explicit override whenever one is provided; but a provided
empty override fails the `length > 0` test and falls back to the whole
universe. -/
theorem c9_resolve_counterexample :
    resolveTickers { tickers := some [] }
        [{ ticker := "XOM", company := "Exxon Mobil Corp",
           industry := "Oil and Gas Integrated", country := "USA" }] = ["XOM"] ∧
    (["XOM"] : List String) ≠ ([] : List String) := by
  decide

/-- C9 (amended): scan resolves its ticker list to the explicit override
whenever a non-empty one is provided, and to every ticker of the
configured universe otherwise (a null or empty override); the batched
fetch then enumerates exactly the resolved tickers in order, so with a
duplicate-free universe and no override each universe ticker is fetched
exactly once. -/
theorem c9_ticker_resolution :
    (∀ (sp : ScanParams) (ul : List UniverseEntry) (ts : List String),
      sp.tickers = some ts → ts ≠ [] → resolveTickers sp ul = ts) ∧
    (∀ (sp : ScanParams) (ul : List UniverseEntry),
      sp.tickers = none → resolveTickers sp ul = ul.map (·.ticker)) ∧
    (∀ (sp : ScanParams) (ul : List UniverseEntry) (concurrency : ℕ),
      concurrency ≠ 0 →
      (chunk (resolveTickers sp ul) concurrency).flatten = resolveTickers sp ul) ∧
    (∀ (sp : ScanParams) (ul : List UniverseEntry) (concurrency : ℕ),
      concurrency ≠ 0 → sp.tickers = none → (ul.map (·.ticker)).Nodup →
      ∀ t ∈ ul.map (·.ticker),
        ((chunk (resolveTickers sp ul) concurrency).flatten).count t = 1) := by
  refine ⟨?_, ?_, ?_, ?_⟩
  · intro sp ul ts hts hne
    simp only [resolveTickers, hts]
    rw [if_pos (by cases ts with | nil => exact absurd rfl hne | cons a as => simp)]
  · intro sp ul hts
    simp only [resolveTickers, hts]
  · intro sp ul concurrency hc
    exact flatten_chunk concurrency hc _ _ le_rfl
  · intro sp ul concurrency hc hts hnd t ht
    rw [flatten_chunk concurrency hc _ _ le_rfl]
    simp only [resolveTickers, hts]
    exact List.count_eq_one_of_mem hnd ht

/-- C9 witness: the resolution theorem applied to a one-ticker universe
with no override and concurrency 2. -/
theorem c9_ticker_resolution_witness :
    resolveTickers {}
        [{ ticker := "XOM", company := "Exxon Mobil Corp",
           industry := "Oil and Gas Integrated", country := "USA" }] = ["XOM"] :=
  c9_ticker_resolution.2.1 {}
    [{ ticker := "XOM", company := "Exxon Mobil Corp",
       industry := "Oil and Gas Integrated", country := "USA" }] rfl

/-! Claims C6 and C7: cache eviction and snapshot ids. -/

lemma putRec_length_le (store : List ScanRecord) (r : ScanRecord) :
    (putRec store r).length ≤ store.length + 1 := by
  induction store with
  | nil => simp [putRec]
  | cons x xs ih =>
    simp only [putRec]
    by_cases h1 : x.id = r.id
    · rw [if_pos h1]; simp
    · rw [if_neg h1]
      by_cases h2 : r.id < x.id
      · rw [if_pos h2]; simp
      · rw [if_neg h2]
        simpa using Nat.add_le_add_right ih 1

lemma putRec_fresh_length (store : List ScanRecord) (r : ScanRecord)
    (hfresh : r.id ∉ store.map (·.id)) :
    (putRec store r).length = store.length + 1 := by
  induction store with
  | nil => simp [putRec]
  | cons x xs ih =>
    have hx : x.id ≠ r.id := by
      intro h
      exact hfresh (by simp [← h])
    simp only [putRec, if_neg hx]
    by_cases h2 : r.id < x.id
    · rw [if_pos h2]; simp
    · rw [if_neg h2]
      have : r.id ∉ xs.map (·.id) := fun h => hfresh (by simp [h])
      simpa using ih this

lemma putRec_fresh_mem (store : List ScanRecord) (r : ScanRecord)
    (hfresh : r.id ∉ store.map (·.id)) (x : ScanRecord) :
    x ∈ putRec store r ↔ x = r ∨ x ∈ store := by
  induction store with
  | nil => simp [putRec]
  | cons y ys ih =>
    have hy : y.id ≠ r.id := by
      intro h
      exact hfresh (by simp [← h])
    simp only [putRec, if_neg hy]
    by_cases h2 : r.id < y.id
    · rw [if_pos h2]
      simp [List.mem_cons, or_comm, or_assoc, or_left_comm]
    · rw [if_neg h2]
      have hf : r.id ∉ ys.map (·.id) := fun h => hfresh (by simp [h])
      simp [List.mem_cons, ih hf, or_left_comm]

lemma deleteRec_sublist (store : List ScanRecord) (k : ℕ) :
    List.Sublist (deleteRec store k) store :=
  List.filter_sublist store

lemma filter_ne_eq_erase (store : List ScanRecord) (o : ScanRecord)
    (hnd : (store.map (·.id)).Nodup) (ho : o ∈ store) :
    deleteRec store o.id = store.erase o := by
  induction store with
  | nil => cases ho
  | cons x xs ih =>
    simp only [List.map_cons, List.nodup_cons] at hnd
    by_cases hx : x = o
    · subst hx
      have hxs : ∀ a ∈ xs, a.id ≠ x.id := by
        intro a ha h
        exact hnd.1 (by rw [← h]; exact List.mem_map_of_mem _ ha)
      simp only [deleteRec, List.filter_cons]
      rw [if_neg (by simp), List.erase_cons_head]
      exact List.filter_eq_self.mpr (fun a ha => by simpa using hxs a ha)
    · have ho' : o ∈ xs := by
        rcases List.mem_cons.mp ho with h | h
        · exact absurd h.symm hx
        · exact h
      have hxo : x.id ≠ o.id := by
        intro h
        exact hnd.1 (by rw [h]; exact List.mem_map_of_mem _ ho')
      simp only [deleteRec, List.filter_cons]
      rw [if_pos (by simpa using hxo), List.erase_cons_tail]
      · exact congrArg (x :: ·) (ih hnd.2 ho')
      · simp [hx]

lemma evictToCount_noop (m : ℕ) (store scans : List ScanRecord)
    (h : scans.length < m) : evictToCount m store scans = (store, scans) := by
  cases scans with
  | nil => rfl
  | cons o rest =>
    simp only [List.length_cons] at h
    simp only [evictToCount]
    rw [if_neg (by omega)]

lemma evictToCount_once (m : ℕ) (store : List ScanRecord) (o : ScanRecord)
    (rest : List ScanRecord) (hlen : (o :: rest).length = m) :
    evictToCount m store (o :: rest) = (deleteRec store o.id, rest) := by
  simp only [List.length_cons] at hlen
  simp only [evictToCount]
  rw [if_pos (by omega)]
  exact evictToCount_noop m _ rest (by omega)

lemma evictToSize_noop (maxSizeBytes newSize : ℕ) (store scans : List ScanRecord)
    (totalSize : ℕ) (h : totalSize + newSize ≤ maxSizeBytes) :
    evictToSize maxSizeBytes newSize store scans totalSize = (store, scans) := by
  cases scans with
  | nil => rfl
  | cons o rest =>
    simp only [evictToSize]
    rw [if_neg (by omega)]

lemma evictToCount_store_sublist (m : ℕ) :
    ∀ (scans store : List ScanRecord),
      List.Sublist (evictToCount m store scans).1 store := by
  intro scans
  induction scans with
  | nil => intro store; exact List.Sublist.refl store
  | cons o rest ih =>
    intro store
    simp only [evictToCount]
    by_cases h : m ≤ rest.length + 1
    · rw [if_pos h]
      exact (ih (deleteRec store o.id)).trans (deleteRec_sublist store o.id)
    · rw [if_neg h]

lemma evictToSize_store_sublist (maxSizeBytes newSize : ℕ) :
    ∀ (scans store : List ScanRecord) (totalSize : ℕ),
      List.Sublist (evictToSize maxSizeBytes newSize store scans totalSize).1 store := by
  intro scans
  induction scans with
  | nil => intro store totalSize; exact List.Sublist.refl store
  | cons o rest ih =>
    intro store totalSize
    simp only [evictToSize]
    by_cases h : maxSizeBytes < totalSize + newSize
    · rw [if_pos h]
      exact (ih (deleteRec store o.id) _).trans (deleteRec_sublist store o.id)
    · rw [if_neg h]

lemma enforce_sublist (cfg : CacheConfig) (store : List ScanRecord) (newSize : ℕ) :
    List.Sublist (enforceStorageLimits cfg store newSize) store := by
  simp only [enforceStorageLimits]
  exact (evictToSize_store_sublist _ _ _ _ _).trans (evictToCount_store_sublist _ _ _)

lemma evictToCount_perm (m : ℕ) :
    ∀ (scans store : List ScanRecord),
      List.Perm scans store → (store.map (·.id)).Nodup →
      List.Perm (evictToCount m store scans).2 (evictToCount m store scans).1 ∧
      ((evictToCount m store scans).1.map (·.id)).Nodup := by
  intro scans
  induction scans with
  | nil =>
    intro store hperm hnd
    have : store = [] := hperm.nil_eq.symm
    subst this
    exact ⟨List.Perm.refl _, hnd⟩
  | cons o rest ih =>
    intro store hperm hnd
    simp only [evictToCount]
    by_cases h : m ≤ rest.length + 1
    · rw [if_pos h]
      have ho : o ∈ store := hperm.mem_iff.mp (List.mem_cons_self o rest)
      have hrest : List.Perm rest (store.erase o) :=
        (List.cons_perm_iff_perm_erase.mp hperm).2
      have hdel : deleteRec store o.id = store.erase o :=
        filter_ne_eq_erase store o hnd ho
      have hsub : List.Sublist ((store.erase o).map (·.id)) (store.map (·.id)) :=
        (store.erase_sublist o).map _
      exact ih (deleteRec store o.id) (by rw [hdel]; exact hrest)
        (by rw [hdel]; exact hnd.sublist hsub)
    · rw [if_neg h]
      exact ⟨hperm, hnd⟩

lemma evictToSize_perm (maxSizeBytes newSize : ℕ) :
    ∀ (scans store : List ScanRecord) (totalSize : ℕ),
      List.Perm scans store → (store.map (·.id)).Nodup →
      List.Perm (evictToSize maxSizeBytes newSize store scans totalSize).2
        (evictToSize maxSizeBytes newSize store scans totalSize).1 ∧
      (((evictToSize maxSizeBytes newSize store scans totalSize).1.map (·.id)).Nodup) := by
  intro scans
  induction scans with
  | nil =>
    intro store totalSize hperm hnd
    have : store = [] := hperm.nil_eq.symm
    subst this
    exact ⟨List.Perm.refl _, hnd⟩
  | cons o rest ih =>
    intro store totalSize hperm hnd
    simp only [evictToSize]
    by_cases h : maxSizeBytes < totalSize + newSize
    · rw [if_pos h]
      have ho : o ∈ store := hperm.mem_iff.mp (List.mem_cons_self o rest)
      have hrest : List.Perm rest (store.erase o) :=
        (List.cons_perm_iff_perm_erase.mp hperm).2
      have hdel : deleteRec store o.id = store.erase o :=
        filter_ne_eq_erase store o hnd ho
      have hsub : List.Sublist ((store.erase o).map (·.id)) (store.map (·.id)) :=
        (store.erase_sublist o).map _
      exact ih (deleteRec store o.id) _ (by rw [hdel]; exact hrest)
        (by rw [hdel]; exact hnd.sublist hsub)
    · rw [if_neg h]
      exact ⟨hperm, hnd⟩

lemma evictToCount_scans_length_lt (m : ℕ) (hm : 1 ≤ m) :
    ∀ (scans store : List ScanRecord), (evictToCount m store scans).2.length < m := by
  intro scans
  induction scans with
  | nil => intro store; simpa using hm
  | cons o rest ih =>
    intro store
    simp only [evictToCount]
    by_cases h : m ≤ rest.length + 1
    · rw [if_pos h]
      exact ih (deleteRec store o.id)
    · rw [if_neg h]
      simp only [List.length_cons]
      omega

lemma evictToSize_scans_length_le (maxSizeBytes newSize : ℕ) :
    ∀ (scans store : List ScanRecord) (totalSize : ℕ),
      (evictToSize maxSizeBytes newSize store scans totalSize).2.length ≤ scans.length := by
  intro scans
  induction scans with
  | nil => intro store totalSize; simp [evictToSize]
  | cons o rest ih =>
    intro store totalSize
    simp only [evictToSize]
    by_cases h : maxSizeBytes < totalSize + newSize
    · rw [if_pos h]
      exact (ih (deleteRec store o.id) _).trans (by simp)
    · rw [if_neg h]

lemma sortByTimestampAsc_pairwise (store : List ScanRecord) :
    (sortByTimestampAsc store).Pairwise (fun a b => a.timestamp ≤ b.timestamp) := by
  have h := @jsStableSort_pairwise ScanRecord
    (fun a b => decide (a.timestamp < b.timestamp)) store
    (fun a _ b _ c _ h1 h2 => by
      rw [decide_eq_false_iff_not, not_lt] at h1 h2 ⊢
      omega)
    (fun a _ b _ h1 => by
      rw [decide_eq_true_eq] at h1
      rw [decide_eq_false_iff_not, not_lt]
      omega)
  exact h.imp (fun hab => by
    rw [decide_eq_false_iff_not, not_lt] at hab
    exact hab)

/-- C6: saving at exactly maxScans capacity (with distinct ids, a fresh
clock value, and a new entry that triggers no size eviction) deletes
exactly the oldest-by-timestamp snapshot — the head of the stable
oldest-first sort, which has minimal timestamp — inserts the new record,
and leaves the count at maxScans; the count after any save never exceeds
maxScans; and with maxScans 2, three sequential saves leave exactly the
two most recent snapshots, newest first in listScans. -/
theorem c6_eviction :
    (∀ (cfg : CacheConfig) (store : List ScanRecord) (now sz : ℕ)
       (oldest : ScanRecord) (rest : List ScanRecord),
      1 ≤ cfg.maxScans →
      store.length = cfg.maxScans →
      (store.map (·.id)).Nodup →
      sortByTimestampAsc store = oldest :: rest →
      sizeSum rest + sz ≤ cfg.maxSizeBytes →
      now ∉ store.map (·.id) →
      (saveScan cfg store now sz).1.length = cfg.maxScans ∧
      (∀ x, x ∈ (saveScan cfg store now sz).1 ↔
        x = { id := now, timestamp := now, size := sz } ∨ (x ∈ store ∧ x ≠ oldest)) ∧
      oldest ∈ store ∧ (∀ x ∈ store, oldest.timestamp ≤ x.timestamp)) ∧
    (∀ (cfg : CacheConfig) (store : List ScanRecord) (now sz : ℕ),
      1 ≤ cfg.maxScans → (store.map (·.id)).Nodup →
      (saveScan cfg store now sz).1.length ≤ cfg.maxScans) ∧
    ((listScans (saveScan ⟨2, 1000000⟩
        (saveScan ⟨2, 1000000⟩ (saveScan ⟨2, 1000000⟩ [] 100 10).1 200 10).1
        300 10).1).map (·.id) = [300, 200]) := by
  refine ⟨?_, ?_, by decide⟩
  · intro cfg store now sz oldest rest h1 hlen hnd hsort hsize hfresh
    have hperm0 : List.Perm (sortByTimestampAsc store) store := jsStableSort_perm _ _
    rw [hsort] at hperm0
    have holdmem : oldest ∈ store := hperm0.mem_iff.mp (List.mem_cons_self _ _)
    have hlen2 : (oldest :: rest).length = cfg.maxScans := by
      rw [hperm0.length_eq, hlen]
    have hdel : deleteRec store oldest.id = store.erase oldest :=
      filter_ne_eq_erase store oldest hnd holdmem
    have henf : enforceStorageLimits cfg store sz = store.erase oldest := by
      simp only [enforceStorageLimits, hsort]
      rw [evictToCount_once cfg.maxScans store oldest rest hlen2,
        evictToSize_noop _ _ _ _ _ hsize, hdel]
    have hsave : (saveScan cfg store now sz).1 =
        putRec (store.erase oldest) { id := now, timestamp := now, size := sz } := by
      simp only [saveScan]
      rw [henf]
    have hfresh2 : now ∉ (store.erase oldest).map (·.id) :=
      fun h => hfresh (((store.erase_sublist oldest).map (·.id)).subset h)
    have hnodup_store : store.Nodup := hnd.of_map
    have hlen_erase : (store.erase oldest).length = cfg.maxScans - 1 := by
      rw [List.length_erase_of_mem holdmem, hlen]
    refine ⟨?_, ?_, holdmem, ?_⟩
    · rw [hsave, putRec_fresh_length _ _ hfresh2, hlen_erase]
      omega
    · intro x
      rw [hsave, putRec_fresh_mem _ _ hfresh2 x, hnodup_store.mem_erase_iff]
      tauto
    · intro x hx
      have hpw := sortByTimestampAsc_pairwise store
      rw [hsort] at hpw
      rcases List.mem_cons.mp (hperm0.mem_iff.mpr hx) with rfl | hxr
      · exact le_refl _
      · exact (List.pairwise_cons.mp hpw).1 x hxr
  · intro cfg store now sz h1 hnd
    have hperm0 : List.Perm (sortByTimestampAsc store) store := jsStableSort_perm _ _
    obtain ⟨hp1, hn1⟩ :=
      evictToCount_perm cfg.maxScans (sortByTimestampAsc store) store hperm0 hnd
    obtain ⟨hp2, hn2⟩ :=
      evictToSize_perm cfg.maxSizeBytes sz
        (evictToCount cfg.maxScans store (sortByTimestampAsc store)).2
        (evictToCount cfg.maxScans store (sortByTimestampAsc store)).1
        (sizeSum (evictToCount cfg.maxScans store (sortByTimestampAsc store)).2) hp1 hn1
    have hL1 := evictToCount_scans_length_lt cfg.maxScans h1 (sortByTimestampAsc store) store
    have hL2 := evictToSize_scans_length_le cfg.maxSizeBytes sz
      (evictToCount cfg.maxScans store (sortByTimestampAsc store)).2
      (evictToCount cfg.maxScans store (sortByTimestampAsc store)).1
      (sizeSum (evictToCount cfg.maxScans store (sortByTimestampAsc store)).2)
    have e1 := hp1.length_eq
    have e2 := hp2.length_eq
    simp only [saveScan, enforceStorageLimits]
    have e3 := putRec_length_le
      (evictToSize cfg.maxSizeBytes sz
        (evictToCount cfg.maxScans store (sortByTimestampAsc store)).1
        (evictToCount cfg.maxScans store (sortByTimestampAsc store)).2
        (sizeSum (evictToCount cfg.maxScans store (sortByTimestampAsc store)).2)).1
      { id := now, timestamp := now, size := sz }
    omega

/-- C6 witness: the eviction theorem applied to a two-record store at
capacity 2; the save leaves the count at 2. -/
theorem c6_eviction_witness :
    (saveScan ⟨2, 1000000⟩
      [{ id := 1, timestamp := 1, size := 10 }, { id := 2, timestamp := 2, size := 10 }]
      3 10).1.length = 2 :=
  (c6_eviction.1 ⟨2, 1000000⟩
    [{ id := 1, timestamp := 1, size := 10 }, { id := 2, timestamp := 2, size := 10 }]
    3 10 { id := 1, timestamp := 1, size := 10 } [{ id := 2, timestamp := 2, size := 10 }]
    (by decide) (by decide) (by decide) (by decide) (by decide) (by decide)).1

/-- C7 counterexample. The claim asserts distinct, strictly increasing
snapshot ids and that no save replaces a stored snapshot. Two saves
within the same clock millisecond receive the same id `Date.now()`, and
the second `put` overwrites the first snapshot: the store still holds a
single record. -/
theorem c7_same_clock_counterexample :
    (saveScan ⟨10, 1000000⟩ [] 5 7).2 = some 5 ∧
    (saveScan ⟨10, 1000000⟩ (saveScan ⟨10, 1000000⟩ [] 5 7).1 5 7).2 = some 5 ∧
    (saveScan ⟨10, 1000000⟩ (saveScan ⟨10, 1000000⟩ [] 5 7).1 5 7).1 =
      [{ id := 5, timestamp := 5, size := 7 }] := by
  decide

/-- C7 (amended): a save returns the save-time clock value as the id, so
saves at strictly increasing clock values receive distinct, strictly
increasing ids; and a save whose clock value is not among the stored ids
inserts rather than replaces — every record surviving limit enforcement
is still stored and the count grows by exactly one. Saves within the
same millisecond reuse the id and overwrite (see the counterexample). -/
theorem c7_snapshot_ids :
    (∀ (cfg : CacheConfig) (store : List ScanRecord) (now sz : ℕ),
      (saveScan cfg store now sz).2 = some now) ∧
    (∀ (cfg₁ cfg₂ : CacheConfig) (st₁ st₂ : List ScanRecord) (n₁ n₂ s₁ s₂ : ℕ),
      n₁ < n₂ → ∀ i₁ i₂, (saveScan cfg₁ st₁ n₁ s₁).2 = some i₁ →
      (saveScan cfg₂ st₂ n₂ s₂).2 = some i₂ → i₁ < i₂ ∧ i₁ ≠ i₂) ∧
    (∀ (cfg : CacheConfig) (store : List ScanRecord) (now sz : ℕ),
      now ∉ store.map (·.id) →
      (saveScan cfg store now sz).1.length =
        (enforceStorageLimits cfg store sz).length + 1 ∧
      ∀ x ∈ enforceStorageLimits cfg store sz, x ∈ (saveScan cfg store now sz).1) := by
  refine ⟨?_, ?_, ?_⟩
  · intro cfg store now sz
    rfl
  · intro cfg₁ cfg₂ st₁ st₂ n₁ n₂ s₁ s₂ hlt i₁ i₂ h1 h2
    have e1 : n₁ = i₁ := by
      have : (some n₁ : Option ℕ) = some i₁ := h1
      injection this
    have e2 : n₂ = i₂ := by
      have : (some n₂ : Option ℕ) = some i₂ := h2
      injection this
    omega
  · intro cfg store now sz hfresh
    have hfresh2 : now ∉ (enforceStorageLimits cfg store sz).map (·.id) :=
      fun h => hfresh (((enforce_sublist cfg store sz).map (·.id)).subset h)
    constructor
    · exact putRec_fresh_length _ _ hfresh2
    · intro x hx
      exact (putRec_fresh_mem _ _ hfresh2 x).mpr (Or.inr hx)

/-- C7 witness: the id theorem applied to an empty store at clock 5; the
save returns id 5 and stores one record. -/
theorem c7_snapshot_ids_witness :
    (saveScan ⟨10, 1000000⟩ [] 5 7).1.length =
      (enforceStorageLimits ⟨10, 1000000⟩ [] 7).length + 1 :=
  (c7_snapshot_ids.2.2 ⟨10, 1000000⟩ [] 5 7 (by decide)).1

end OptionsScanner
